/-
Verification of the Black-Scholes-Merton notebook
(src/Finance/python-black-scholes-merton.ipynb).

The notebook's numeric core consists of three pieces:
  * `bsm s_0 r sigma t z = s_0 * exp((r - 1/2*sigma^2)*t + sigma*z*t^(1/2))`
    (the geometric-Brownian-motion terminal price; the spec's
    PriceSimulator.simulate), applied to a scalar draw or elementwise to a
    vector of draws by numpy broadcasting;
  * the Monte Carlo valuation cell
    `optionValuesAtExpiry = np.maximum(stockPriceAtExpiry - strikePrice, 0)`
    `averageForwardOptionValue = sum(optionValuesAtExpiry)/n`
    `presentOptionValue = averageForwardOptionValue * math.exp(-r*t)`
    (the spec's MonteCarloOptionValuer.value);
  * `call s r sigma t k` with
    `d1 = 1/(sigma*t**0.5)*(np.log(s/k) + (r+sigma^2/2)*t)`,
    `d2 = d1 - sigma*t**0.5`,
    `call = norm.cdf(d1)*s - norm.cdf(d2)*k*np.exp(-r*t)`
    (the spec's ClosedFormPricer.price).

We embed the arithmetic over the exact reals.  numpy's `t**0.5` is the
principal square root for `t ≥ 0`, embedded as `Real.sqrt t`; scipy's
`norm.cdf` is the standard normal cumulative distribution function,
embedded as the Lebesgue integral of the standard normal density over
`Iic x`.  Vectorized application is `List.map`.  The Monte Carlo cell's
division `sum(...)/n` fails in Python when the sample is empty
(division by zero), so the valuation is embedded as an `Option`,
returning `none` exactly on the empty sample.
-/
import Mathlib

open Real MeasureTheory intervalIntegral

noncomputable section

/-- Standard normal probability density function. -/
def normPdf (x : ℝ) : ℝ := Real.exp (-x ^ 2 / 2) / Real.sqrt (2 * π)

/-- Standard normal cumulative distribution function (scipy's `norm.cdf`). -/
def normCdf (x : ℝ) : ℝ := ∫ t in Set.Iic x, normPdf t

/-- The notebook's `bsm(s_0, r, sigma, t, z)`:
`s_0*np.exp((r-1.0/2*sigma**2)*t+sigma*z*t**(1.0/2))`. -/
def bsm (s_0 r sigma t z : ℝ) : ℝ :=
  s_0 * Real.exp ((r - 1 / 2 * sigma ^ 2) * t + sigma * z * Real.sqrt t)

/-- `bsm` applied to a vector of draws, as numpy broadcasting applies the
scalar formula elementwise to `np.random.standard_normal(n)`. -/
def bsmVec (s_0 r sigma t : ℝ) (zs : List ℝ) : List ℝ :=
  zs.map (bsm s_0 r sigma t)

/-- The Monte Carlo cell's `optionValuesAtExpiry`:
`np.maximum(stockPriceAtExpiry - strikePrice, 0)`, elementwise. -/
def optionValuesAtExpiry (prices : List ℝ) (strikePrice : ℝ) : List ℝ :=
  prices.map (fun p => max (p - strikePrice) 0)

/-- The Monte Carlo cell's `averageForwardOptionValue`:
`sum(optionValuesAtExpiry)/n` where `n` is the sample size. -/
def averageForwardOptionValue (prices : List ℝ) (strikePrice : ℝ) : ℝ :=
  (optionValuesAtExpiry prices strikePrice).sum / prices.length

/-- The Monte Carlo cell's `presentOptionValue`:
`averageForwardOptionValue * math.exp(-r*t)`.  In Python the division
`sum(...)/n` raises on an empty sample (`n = 0`), so the result is an
`Option`, `none` exactly when the sample is empty. -/
def presentOptionValue (prices : List ℝ) (strikePrice r t : ℝ) : Option ℝ :=
  if prices.length = 0 then none
  else some (averageForwardOptionValue prices strikePrice * Real.exp (-r * t))

/-- The notebook's `d1`:
`1/(sigma*t**(0.5))*(np.log(float(s)/k) + (r+sigma**2/2)*t)`. -/
def d1 (s r sigma t k : ℝ) : ℝ :=
  1 / (sigma * Real.sqrt t) * (Real.log (s / k) + (r + sigma ^ 2 / 2) * t)

/-- The notebook's `d2`: `d1 - sigma*t**(0.5)`. -/
def d2 (s r sigma t k : ℝ) : ℝ :=
  d1 s r sigma t k - sigma * Real.sqrt t

/-- The notebook's `call(s, r, sigma, t, k)`:
`norm.cdf(d1)*s - norm.cdf(d2)*k*np.exp(-r*t)`. -/
def call (s r sigma t k : ℝ) : ℝ :=
  normCdf (d1 s r sigma t k) * s - normCdf (d2 s r sigma t k) * k * Real.exp (-r * t)

/-- The spec's statement of `d1`, written exactly as §4.3 words it:
`[ln(spot/strike) + (riskFreeRate + volatility^2/2)*timeToExpiry] /
(volatility*sqrt(timeToExpiry))`.  Kept separate from the notebook's `d1`
(which multiplies by the reciprocal) to compare the two. -/
def specD1 (spot riskFreeRate volatility timeToExpiry strike : ℝ) : ℝ :=
  (Real.log (spot / strike) + (riskFreeRate + volatility ^ 2 / 2) * timeToExpiry) /
    (volatility * Real.sqrt timeToExpiry)

end

/-! ### Basic facts about the standard normal density and CDF -/

lemma normPdf_pos (x : ℝ) : 0 < normPdf x :=
  div_pos (Real.exp_pos _) (Real.sqrt_pos.mpr (by positivity))

lemma normPdf_nonneg (x : ℝ) : 0 ≤ normPdf x := (normPdf_pos x).le

lemma normPdf_eq (x : ℝ) : normPdf x = Real.exp (-(1 / 2) * x ^ 2) / Real.sqrt (2 * π) := by
  unfold normPdf; ring_nf

lemma continuous_normPdf : Continuous normPdf := by
  unfold normPdf
  exact (Real.continuous_exp.comp (by continuity)).div_const _

lemma integrable_normPdf : Integrable normPdf := by
  have h : Integrable (fun x : ℝ => Real.exp (-(1 / 2) * x ^ 2)) :=
    integrable_exp_neg_mul_sq (by norm_num)
  have hfun : normPdf = fun x => Real.exp (-(1 / 2) * x ^ 2) / Real.sqrt (2 * π) := by
    funext x; exact normPdf_eq x
  rw [hfun]
  exact h.div_const _

lemma sqrt_two_pi_pos : 0 < Real.sqrt (2 * π) :=
  Real.sqrt_pos.mpr (by positivity)

lemma integral_normPdf : ∫ x : ℝ, normPdf x = 1 := by
  have h := integral_gaussian (1 / 2)
  have hfun : ∀ x : ℝ, normPdf x = Real.exp (-(1 / 2) * x ^ 2) / Real.sqrt (2 * π) :=
    normPdf_eq
  rw [show (fun x : ℝ => normPdf x) = fun x => Real.exp (-(1 / 2) * x ^ 2) / Real.sqrt (2 * π)
      from funext hfun]
  rw [MeasureTheory.integral_div, h, show π / (1 / 2) = 2 * π by ring,
    div_self sqrt_two_pi_pos.ne']

lemma normCdf_nonneg (x : ℝ) : 0 ≤ normCdf x :=
  setIntegral_nonneg measurableSet_Iic fun t _ => normPdf_nonneg t

lemma normCdf_le_one (x : ℝ) : normCdf x ≤ 1 := by
  have h := setIntegral_le_integral (s := Set.Iic x) integrable_normPdf
    (Filter.Eventually.of_forall normPdf_nonneg)
  rwa [integral_normPdf] at h

lemma normCdf_mono : Monotone normCdf := by
  intro a b hab
  exact setIntegral_mono_set integrable_normPdf.integrableOn
    (Filter.Eventually.of_forall normPdf_nonneg)
    (HasSubset.Subset.eventuallyLE (Set.Iic_subset_Iic.mpr hab))

/-! ### Claim theorems: elementary functional properties -/

/-- C1: for every spot > 0, strike > 0, volatility > 0 and timeToExpiry > 0,
`call` returns exactly `Φ(d1)*spot - Φ(d2)*strike*exp(-r*t)` where `d1` is the
spec's formula `[ln(spot/strike) + (r + σ²/2)*t] / (σ*√t)` and `d2 = d1 - σ*√t`. -/
theorem call_matches_spec_formula (s r sigma t k : ℝ)
    (hs : 0 < s) (hk : 0 < k) (hsig : 0 < sigma) (ht : 0 < t) :
    call s r sigma t k =
      normCdf (specD1 s r sigma t k) * s -
        normCdf (specD1 s r sigma t k - sigma * Real.sqrt t) * k *
          Real.exp (-r * t) := by
  have hD : d1 s r sigma t k = specD1 s r sigma t k := by
    unfold d1 specD1; ring
  rw [call, d2, hD]

/-- Witness for C1 at spot = 1, r = 0, σ = 1, t = 1, strike = 1. -/
theorem call_matches_spec_formula_witness :
    call 1 0 1 1 1 =
      normCdf (specD1 1 0 1 1 1) * 1 -
        normCdf (specD1 1 0 1 1 1 - 1 * Real.sqrt 1) * 1 * Real.exp (-0 * 1) :=
  call_matches_spec_formula 1 0 1 1 1 (by norm_num) (by norm_num) (by norm_num) (by norm_num)

/-- C2: for valid parameters and any finite list of draws, `bsmVec` returns as
many prices as draws, the i-th output is
`spot * exp((r - 0.5*σ²)*t + σ*z_i*√t)` for the i-th draw `z_i` (elementwise,
order preserved), and the same formula holds for a single scalar draw. -/
theorem bsm_simulate_elementwise (s_0 r sigma t : ℝ)
    (hs : 0 < s_0) (hsig : 0 < sigma) (ht : 0 < t) (zs : List ℝ) :
    (bsmVec s_0 r sigma t zs).length = zs.length ∧
    (∀ i (hi : i < zs.length) (hi2 : i < (bsmVec s_0 r sigma t zs).length),
      (bsmVec s_0 r sigma t zs).get ⟨i, hi2⟩ =
        s_0 * Real.exp ((r - 0.5 * sigma ^ 2) * t +
          sigma * (zs.get ⟨i, hi⟩) * Real.sqrt t)) ∧
    (∀ z : ℝ, bsm s_0 r sigma t z =
      s_0 * Real.exp ((r - 0.5 * sigma ^ 2) * t + sigma * z * Real.sqrt t)) := by
  refine ⟨by simp [bsmVec], ?_, ?_⟩
  · intro i hi hi2
    simp [bsmVec, bsm]
    norm_num
  · intro z
    simp [bsm]
    norm_num

/-- Witness for C2 at spot = 1, r = 0, σ = 1, t = 1, draws = [0]. -/
theorem bsm_simulate_elementwise_witness :
    (bsmVec 1 0 1 1 [0]).length = ([0] : List ℝ).length ∧
    (∀ i (hi : i < ([0] : List ℝ).length) (hi2 : i < (bsmVec 1 0 1 1 [0]).length),
      (bsmVec 1 0 1 1 [0]).get ⟨i, hi2⟩ =
        1 * Real.exp ((0 - 0.5 * 1 ^ 2) * 1 +
          1 * (([0] : List ℝ).get ⟨i, hi⟩) * Real.sqrt 1)) ∧
    (∀ z : ℝ, bsm 1 0 1 1 z =
      1 * Real.exp ((0 - 0.5 * 1 ^ 2) * 1 + 1 * z * Real.sqrt 1)) :=
  bsm_simulate_elementwise 1 0 1 1 (by norm_num) (by norm_num) (by norm_num) [0]

/-- C3: for every non-empty price list and every strike, rate and time,
the Monte Carlo valuation returns exactly the arithmetic mean of
`max(price - strike, 0)` discounted by `exp(-r*t)`. -/
theorem presentOptionValue_mean_discounted (prices : List ℝ) (strikePrice r t : ℝ)
    (h : prices ≠ []) :
    presentOptionValue prices strikePrice r t =
      some ((prices.map fun p => max (p - strikePrice) 0).sum / prices.length *
        Real.exp (-r * t)) := by
  have hlen : prices.length ≠ 0 := fun hc => h (List.length_eq_zero.mp hc)
  simp [presentOptionValue, averageForwardOptionValue, optionValuesAtExpiry, hlen]

/-- Witness for C3 at prices = [2], strike = 1, r = 0, t = 0. -/
theorem presentOptionValue_mean_discounted_witness :
    presentOptionValue [2] 1 0 0 =
      some ((([2] : List ℝ).map fun p => max (p - 1) 0).sum / ([2] : List ℝ).length *
        Real.exp (-0 * 0)) :=
  presentOptionValue_mean_discounted [2] 1 0 0 (by simp)

/-- C5: the Monte Carlo valuation fails (returns no numeric result) exactly on
the empty sample: it is `none` on `[]` and `none` never occurs on a non-empty
sample. -/
theorem presentOptionValue_none_iff_empty (prices : List ℝ) (strikePrice r t : ℝ) :
    presentOptionValue prices strikePrice r t = none ↔ prices = [] := by
  constructor
  · intro h
    by_contra hne
    have hlen : prices.length ≠ 0 := fun hc => hne (List.length_eq_zero.mp hc)
    simp [presentOptionValue, hlen] at h
  · intro h
    subst h
    simp [presentOptionValue]

/-- C8: `bsm` is deterministic — two invocations with identical parameters and
an identical draw list produce identical outputs (the embedding is a pure
function of its arguments; no hidden state exists). -/
theorem bsm_deterministic (a1 a2 b1 b2 c1 c2 e1 e2 : ℝ) (zs1 zs2 : List ℝ)
    (ha : a1 = a2) (hb : b1 = b2) (hc : c1 = c2) (he : e1 = e2) (hz : zs1 = zs2) :
    bsmVec a1 b1 c1 e1 zs1 = bsmVec a2 b2 c2 e2 zs2 := by
  rw [ha, hb, hc, he, hz]

/-- Witness for C8 at two syntactically equal invocations. -/
theorem bsm_deterministic_witness :
    bsmVec 100 (3 / 100) (2 / 5) (1 / 4) [1] = bsmVec 100 (3 / 100) (2 / 5) (1 / 4) [1] :=
  bsm_deterministic 100 100 (3 / 100) (3 / 100) (2 / 5) (2 / 5) (1 / 4) (1 / 4) [1] [1]
    rfl rfl rfl rfl rfl

/-- C9: the undiscounted mean payoff `sum(max(price - strike, 0))/n` is
nonnegative for every input sample and strike. -/
theorem averageForwardOptionValue_nonneg (prices : List ℝ) (strikePrice : ℝ) :
    0 ≤ averageForwardOptionValue prices strikePrice := by
  apply div_nonneg
  · apply List.sum_nonneg
    intro x hx
    simp only [optionValuesAtExpiry, List.mem_map] at hx
    obtain ⟨p, _, rfl⟩ := hx
    exact le_max_right _ _
  · positivity

/-- C10 (implicit): for spot > 0 every simulated price is strictly positive —
the scalar `bsm` output is positive for every draw, and hence every element of
a simulated price list is positive. -/
theorem bsm_prices_pos (s_0 r sigma t : ℝ) (hs : 0 < s_0) :
    (∀ z : ℝ, 0 < bsm s_0 r sigma t z) ∧
    (∀ zs : List ℝ, ∀ p ∈ bsmVec s_0 r sigma t zs, 0 < p) := by
  have hz : ∀ z : ℝ, 0 < bsm s_0 r sigma t z := fun z =>
    mul_pos hs (Real.exp_pos _)
  refine ⟨hz, ?_⟩
  intro zs p hp
  simp only [bsmVec, List.mem_map] at hp
  obtain ⟨z, _, rfl⟩ := hp
  exact hz z

/-- Witness for C10 at spot = 1. -/
theorem bsm_prices_pos_witness :
    (∀ z : ℝ, 0 < bsm 1 0 1 1 z) ∧
    (∀ zs : List ℝ, ∀ p ∈ bsmVec 1 0 1 1 zs, 0 < p) :=
  bsm_prices_pos 1 0 1 1 (by norm_num)

/-- C4 counterexample: `bsm` applied to spot = -1 (with r = 0, σ = 1, t = 1,
z = 0) returns the numeric value `-exp(-1/2) < 0`; no `InvalidParameterError`
is raised — the code performs no parameter validation. -/
theorem bsm_spot_neg_returns_numeric :
    bsm (-1) 0 1 1 0 = -Real.exp (-(1 / 2)) ∧ bsm (-1) 0 1 1 0 < 0 := by
  constructor
  · simp [bsm]
  · exact mul_neg_of_neg_of_pos (by norm_num) (Real.exp_pos _)

/-- C4 amended: the notebook performs no input validation; `bsm` is a total
function, and for every spot < 0 it returns the numeric (negative) value
`spot * exp(...)` instead of failing. -/
theorem bsm_no_validation (s_0 r sigma t z : ℝ) (hs : s_0 < 0) :
    bsm s_0 r sigma t z < 0 :=
  mul_neg_of_neg_of_pos hs (Real.exp_pos _)

/-- Witness for the amended C4 at spot = -1. -/
theorem bsm_no_validation_witness : bsm (-1) 0 1 1 0 < 0 :=
  bsm_no_validation (-1) 0 1 1 0 (by norm_num)

/-! ### Differentiability of the normal CDF and the BSM density identity -/

lemma normCdf_eq_add_intervalIntegral (x : ℝ) :
    normCdf x = normCdf 0 + ∫ t in (0 : ℝ)..x, normPdf t := by
  have h := integral_Iic_sub_Iic (f := normPdf) (μ := volume) (a := (0 : ℝ)) (b := x)
    integrable_normPdf.integrableOn integrable_normPdf.integrableOn
  unfold normCdf
  linarith [h]

lemma hasDerivAt_normCdf (x : ℝ) : HasDerivAt normCdf (normPdf x) x := by
  have hfun : normCdf = fun u => normCdf 0 + ∫ t in (0 : ℝ)..u, normPdf t :=
    funext normCdf_eq_add_intervalIntegral
  rw [hfun]
  exact (integral_hasDerivAt_right
    (continuous_normPdf.intervalIntegrable 0 x)
    (continuous_normPdf.stronglyMeasurableAtFilter _ _)
    continuous_normPdf.continuousAt).const_add (normCdf 0)

lemma continuous_normCdf : Continuous normCdf := by
  have h : Differentiable ℝ normCdf := fun x => (hasDerivAt_normCdf x).differentiableAt
  exact h.continuous

/-- The density identity behind the BSM greeks:
`s * φ(d1) = k * exp(-r*t) * φ(d2)` for positive spot, strike, vol and time. -/
lemma spot_pdf_identity (s r sigma t k : ℝ)
    (hs : 0 < s) (hk : 0 < k) (hsig : sigma ≠ 0) (ht : 0 < t) :
    s * normPdf (d1 s r sigma t k) =
      k * Real.exp (-r * t) * normPdf (d2 s r sigma t k) := by
  have hst : 0 < Real.sqrt t := Real.sqrt_pos.mpr ht
  have hst2 : Real.sqrt t * Real.sqrt t = t := Real.mul_self_sqrt ht.le
  have hd1 : d1 s r sigma t k * (sigma * Real.sqrt t)
      = Real.log s - Real.log k + (r + sigma ^ 2 / 2) * t := by
    unfold d1
    rw [Real.log_div hs.ne' hk.ne']
    field_simp
    ring
  have ha2 : (sigma * Real.sqrt t) * (sigma * Real.sqrt t) = sigma ^ 2 * t := by
    rw [show (sigma * Real.sqrt t) * (sigma * Real.sqrt t)
        = sigma ^ 2 * (Real.sqrt t * Real.sqrt t) by ring, hst2]
  have hexp : Real.log s + -(d1 s r sigma t k) ^ 2 / 2
      = Real.log k + -r * t + -(d2 s r sigma t k) ^ 2 / 2 := by
    have hd2 : d2 s r sigma t k = d1 s r sigma t k - sigma * Real.sqrt t := rfl
    rw [hd2]
    linear_combination -hd1 + (1 / 2) * ha2
  have habs : ∀ A B : ℝ, Real.log s + A = Real.log k + -r * t + B →
      s * Real.exp A = k * Real.exp (-r * t) * Real.exp B := by
    intro A B hAB
    rw [← Real.exp_log hs, ← Real.exp_log hk, ← Real.exp_add, ← Real.exp_add,
      ← Real.exp_add, hAB]
  have h := habs _ _ hexp
  unfold normPdf
  rw [mul_div_assoc', mul_div_assoc']
  rw [div_eq_div_iff sqrt_two_pi_pos.ne' sqrt_two_pi_pos.ne']
  linear_combination Real.sqrt (2 * π) * h

/-! ### Derivatives of the closed-form price -/

lemma hasDerivAt_d1_spot (r sigma t k : ℝ) (hsig : sigma ≠ 0) (ht : 0 < t) (hk : 0 < k)
    {s : ℝ} (hs : 0 < s) :
    HasDerivAt (fun x => d1 x r sigma t k) (1 / (s * (sigma * Real.sqrt t))) s := by
  have hst : 0 < Real.sqrt t := Real.sqrt_pos.mpr ht
  have hdiv : HasDerivAt (fun x : ℝ => x / k) (1 / k) s := by
    simpa using (hasDerivAt_id s).div_const k
  have hlog : HasDerivAt (fun x : ℝ => Real.log (x / k)) ((1 / k) / (s / k)) s :=
    hdiv.log (by positivity)
  have h := (hlog.add_const ((r + sigma ^ 2 / 2) * t)).const_mul (1 / (sigma * Real.sqrt t))
  simp only [d1]
  convert h using 1
  field_simp
  ring

lemma hasDerivAt_call_spot (r sigma t k : ℝ) (hsig : sigma ≠ 0) (ht : 0 < t) (hk : 0 < k)
    {s : ℝ} (hs : 0 < s) :
    HasDerivAt (fun x => call x r sigma t k) (normCdf (d1 s r sigma t k)) s := by
  have hst : 0 < Real.sqrt t := Real.sqrt_pos.mpr ht
  have hd1' := hasDerivAt_d1_spot r sigma t k hsig ht hk hs
  have hd2' : HasDerivAt (fun x => d2 x r sigma t k)
      (1 / (s * (sigma * Real.sqrt t))) s := by
    simp only [d2]
    exact hd1'.sub_const _
  have hn1 : HasDerivAt (fun x => normCdf (d1 x r sigma t k))
      (normPdf (d1 s r sigma t k) * (1 / (s * (sigma * Real.sqrt t)))) s := by
    have := (hasDerivAt_normCdf (d1 s r sigma t k)).comp s hd1'
    simpa [Function.comp] using this
  have hn2 : HasDerivAt (fun x => normCdf (d2 x r sigma t k))
      (normPdf (d2 s r sigma t k) * (1 / (s * (sigma * Real.sqrt t)))) s := by
    have := (hasDerivAt_normCdf (d2 s r sigma t k)).comp s hd2'
    simpa [Function.comp] using this
  have hterm1 : HasDerivAt (fun x => normCdf (d1 x r sigma t k) * x)
      (normPdf (d1 s r sigma t k) * (1 / (s * (sigma * Real.sqrt t))) * s +
        normCdf (d1 s r sigma t k) * 1) s :=
    hn1.mul (hasDerivAt_id s)
  have hterm2 : HasDerivAt
      (fun x => normCdf (d2 x r sigma t k) * k * Real.exp (-r * t))
      (normPdf (d2 s r sigma t k) * (1 / (s * (sigma * Real.sqrt t))) * k *
        Real.exp (-r * t)) s :=
    (hn2.mul_const k).mul_const (Real.exp (-r * t))
  have htotal := hterm1.sub hterm2
  have hcall : (fun x => normCdf (d1 x r sigma t k) * x -
      normCdf (d2 x r sigma t k) * k * Real.exp (-r * t))
      = fun x => call x r sigma t k := rfl
  rw [hcall] at htotal
  have hident := spot_pdf_identity s r sigma t k hs hk hsig ht
  convert htotal using 1
  have hrw : normPdf (d2 s r sigma t k) * (1 / (s * (sigma * Real.sqrt t))) * k *
      Real.exp (-r * t)
      = 1 / (s * (sigma * Real.sqrt t)) *
        (k * Real.exp (-r * t) * normPdf (d2 s r sigma t k)) := by ring
  rw [hrw, ← hident]
  ring

lemma hasDerivAt_d1_vol (s r t k : ℝ) (ht : 0 < t) {v : ℝ} (hv : 0 < v) :
    HasDerivAt (fun w => d1 s r w t k)
      (Real.sqrt t / 2 - (Real.log (s / k) + r * t) / (v ^ 2 * Real.sqrt t)) v := by
  obtain ⟨u, hu, rfl⟩ : ∃ u : ℝ, 0 < u ∧ t = u ^ 2 :=
    ⟨Real.sqrt t, Real.sqrt_pos.mpr ht, (Real.sq_sqrt ht.le).symm⟩
  have hvne := hv.ne'
  have hune := hu.ne'
  simp only [d1, Real.sqrt_sq hu.le]
  have hmul : HasDerivAt (fun w : ℝ => w * u) u v := by
    simpa using (hasDerivAt_id v).mul_const u
  have hinv : HasDerivAt (fun w : ℝ => 1 / (w * u)) (-u / (v * u) ^ 2) v := by
    simpa [one_div] using hmul.inv (by positivity)
  have hsq : HasDerivAt (fun w : ℝ => w ^ 2) (2 * v) v := by
    simpa using hasDerivAt_pow 2 v
  have hpoly : HasDerivAt (fun w : ℝ => Real.log (s / k) + (r + w ^ 2 / 2) * u ^ 2)
      (v * u ^ 2) v := by
    have h := (((hsq.div_const 2).const_add r).mul_const (u ^ 2)).const_add (Real.log (s / k))
    convert h using 1
    ring
  have h := hinv.mul hpoly
  convert h using 1
  field_simp
  ring

lemma hasDerivAt_call_vol (s r t k : ℝ) (hs : 0 < s) (ht : 0 < t) (hk : 0 < k)
    {v : ℝ} (hv : 0 < v) :
    HasDerivAt (fun w => call s r w t k)
      (s * normPdf (d1 s r v t k) * Real.sqrt t) v := by
  have hst : 0 < Real.sqrt t := Real.sqrt_pos.mpr ht
  set D1 := Real.sqrt t / 2 - (Real.log (s / k) + r * t) / (v ^ 2 * Real.sqrt t) with hD1def
  have hd1' : HasDerivAt (fun w => d1 s r w t k) D1 v := hasDerivAt_d1_vol s r t k ht hv
  have hmul : HasDerivAt (fun w : ℝ => w * Real.sqrt t) (Real.sqrt t) v := by
    simpa using (hasDerivAt_id v).mul_const (Real.sqrt t)
  have hd2' : HasDerivAt (fun w => d2 s r w t k) (D1 - Real.sqrt t) v := by
    simp only [d2]
    exact hd1'.sub hmul
  have hn1 : HasDerivAt (fun w => normCdf (d1 s r w t k))
      (normPdf (d1 s r v t k) * D1) v := by
    have := (hasDerivAt_normCdf (d1 s r v t k)).comp v hd1'
    simpa [Function.comp] using this
  have hn2 : HasDerivAt (fun w => normCdf (d2 s r w t k))
      (normPdf (d2 s r v t k) * (D1 - Real.sqrt t)) v := by
    have := (hasDerivAt_normCdf (d2 s r v t k)).comp v hd2'
    simpa [Function.comp] using this
  have htotal := (hn1.mul_const s).sub ((hn2.mul_const k).mul_const (Real.exp (-r * t)))
  have hcall : (fun w => normCdf (d1 s r w t k) * s -
      normCdf (d2 s r w t k) * k * Real.exp (-r * t)) = fun w => call s r w t k := rfl
  rw [hcall] at htotal
  have hident := spot_pdf_identity s r v t k hs hk hv.ne' ht
  convert htotal using 1
  have hrw : normPdf (d2 s r v t k) * (D1 - Real.sqrt t) * k * Real.exp (-r * t)
      = (D1 - Real.sqrt t) * (k * Real.exp (-r * t) * normPdf (d2 s r v t k)) := by ring
  rw [hrw, ← hident]
  ring

lemma call_monotoneOn_spot (r sigma t k : ℝ) (hsig : 0 < sigma) (ht : 0 < t) (hk : 0 < k) :
    MonotoneOn (fun x => call x r sigma t k) (Set.Ioi (0 : ℝ)) := by
  apply monotoneOn_of_deriv_nonneg (convex_Ioi 0)
  · intro x hx
    exact (hasDerivAt_call_spot r sigma t k hsig.ne' ht hk
      (Set.mem_Ioi.mp hx)).continuousAt.continuousWithinAt
  · rw [interior_Ioi]
    intro x hx
    exact (hasDerivAt_call_spot r sigma t k hsig.ne' ht hk
      (Set.mem_Ioi.mp hx)).differentiableAt.differentiableWithinAt
  · rw [interior_Ioi]
    intro x hx
    rw [(hasDerivAt_call_spot r sigma t k hsig.ne' ht hk (Set.mem_Ioi.mp hx)).deriv]
    exact normCdf_nonneg _

lemma call_monotoneOn_vol (s r t k : ℝ) (hs : 0 < s) (ht : 0 < t) (hk : 0 < k) :
    MonotoneOn (fun w => call s r w t k) (Set.Ioi (0 : ℝ)) := by
  apply monotoneOn_of_deriv_nonneg (convex_Ioi 0)
  · intro x hx
    exact (hasDerivAt_call_vol s r t k hs ht hk
      (Set.mem_Ioi.mp hx)).continuousAt.continuousWithinAt
  · rw [interior_Ioi]
    intro x hx
    exact (hasDerivAt_call_vol s r t k hs ht hk
      (Set.mem_Ioi.mp hx)).differentiableAt.differentiableWithinAt
  · rw [interior_Ioi]
    intro x hx
    rw [(hasDerivAt_call_vol s r t k hs ht hk (Set.mem_Ioi.mp hx)).deriv]
    exact mul_nonneg (mul_nonneg hs.le (normPdf_nonneg _)) (Real.sqrt_nonneg _)

/-- C6: holding volatility > 0, timeToExpiry > 0 and strike > 0 fixed, the
closed-form call price is non-decreasing in spot over the valid domain
(spot > 0); and holding spot > 0, rate, time and strike fixed it is
non-decreasing in volatility over the valid domain (volatility > 0). -/
theorem call_monotone_spot_vol (r sigma t k s s1 s2 sig1 sig2 : ℝ)
    (hsig : 0 < sigma) (ht : 0 < t) (hk : 0 < k)
    (hs1 : 0 < s1) (h12 : s1 ≤ s2)
    (hs : 0 < s) (hg1 : 0 < sig1) (hg12 : sig1 ≤ sig2) :
    call s1 r sigma t k ≤ call s2 r sigma t k ∧
    call s r sig1 t k ≤ call s r sig2 t k := by
  constructor
  · exact call_monotoneOn_spot r sigma t k hsig ht hk (Set.mem_Ioi.mpr hs1)
      (Set.mem_Ioi.mpr (lt_of_lt_of_le hs1 h12)) h12
  · exact call_monotoneOn_vol s r t k hs ht hk (Set.mem_Ioi.mpr hg1)
      (Set.mem_Ioi.mpr (lt_of_lt_of_le hg1 hg12)) hg12

/-- Witness for C6: spot 1 ≤ 2 and volatility 1 ≤ 2 at r = 0, t = 1, k = 1. -/
theorem call_monotone_spot_vol_witness :
    call 1 0 1 1 1 ≤ call 2 0 1 1 1 ∧ call 1 0 1 1 1 ≤ call 1 0 2 1 1 :=
  call_monotone_spot_vol 0 1 1 1 1 1 2 1 2 (by norm_num) (by norm_num) (by norm_num)
    (by norm_num) (by norm_num) (by norm_num) (by norm_num) (by norm_num)

/-! ### Numerical evaluation of the normal CDF by Taylor enclosures -/

lemma normPdf_even (x : ℝ) : normPdf (-x) = normPdf x := by
  unfold normPdf
  rw [neg_sq]

lemma normCdf_zero : normCdf 0 = 1 / 2 := by
  have hsplit := integral_Iic_add_Ioi (f := normPdf) (μ := volume) (b := (0 : ℝ))
    integrable_normPdf.integrableOn integrable_normPdf.integrableOn
  rw [integral_normPdf] at hsplit
  have hsym : (∫ x in Set.Ioi (0 : ℝ), normPdf x) = ∫ x in Set.Iic (0 : ℝ), normPdf x := by
    have h := integral_comp_neg_Ioi (0 : ℝ) normPdf
    rw [neg_zero] at h
    rw [← h]
    exact setIntegral_congr_fun measurableSet_Ioi fun x _ => (normPdf_even x).symm
  unfold normCdf
  rw [hsym] at hsplit
  linarith

lemma normCdf_eq_half_sub (x : ℝ) :
    normCdf x = 1 / 2 -
      (∫ u in (0 : ℝ)..(-x), Real.exp (-u ^ 2 / 2)) / Real.sqrt (2 * π) := by
  have h0 := normCdf_eq_add_intervalIntegral x
  rw [normCdf_zero] at h0
  have hflip : (∫ u in (0 : ℝ)..x, normPdf u) = -∫ u in (0 : ℝ)..(-x), normPdf u := by
    have h := intervalIntegral.integral_comp_neg (a := (0 : ℝ)) (b := -x) (f := normPdf)
    simp only [neg_zero, neg_neg] at h
    have heven : (∫ u in (0 : ℝ)..(-x), normPdf (-u)) = ∫ u in (0 : ℝ)..(-x), normPdf u := by
      congr 1
      funext u
      exact normPdf_even u
    rw [heven] at h
    rw [h]
    exact intervalIntegral.integral_symm x 0
  have hdiv : (∫ u in (0 : ℝ)..(-x), normPdf u)
      = (∫ u in (0 : ℝ)..(-x), Real.exp (-u ^ 2 / 2)) / Real.sqrt (2 * π) := by
    unfold normPdf
    exact intervalIntegral.integral_div _ _
  rw [h0, hflip, hdiv]
  ring

lemma exp_neg_le_quadratic {u : ℝ} (hu : 0 ≤ u) :
    Real.exp (-u) ≤ 1 - u + u ^ 2 / 2 := by
  have hmono : Monotone (fun u : ℝ => 1 - u + u ^ 2 / 2 - Real.exp (-u)) := by
    have hd : ∀ x : ℝ, HasDerivAt (fun u : ℝ => 1 - u + u ^ 2 / 2 - Real.exp (-u))
        (-1 + x + Real.exp (-x)) x := by
      intro x
      have hexp : HasDerivAt (fun y : ℝ => Real.exp (-y)) (-Real.exp (-x)) x := by
        have h := (Real.hasDerivAt_exp (-x)).comp x ((hasDerivAt_id x).neg)
        simpa [Function.comp] using h
      have hpoly : HasDerivAt (fun y : ℝ => 1 - y + y ^ 2 / 2) (-1 + x) x := by
        have h := (((hasDerivAt_pow 2 x).div_const 2).const_add (1 - x)).sub_const 0
        have h2 : HasDerivAt (fun y : ℝ => 1 - y + y ^ 2 / 2)
            (-1 + 2 * x ^ 1 / 2) x := by
          have hid : HasDerivAt (fun y : ℝ => 1 - y) (-1) x := by
            simpa using (hasDerivAt_id x).const_sub 1
          have := hid.add ((hasDerivAt_pow 2 x).div_const 2)
          convert this using 1
        convert h2 using 1
        ring
      have := hpoly.sub hexp
      convert this using 1
      ring
    apply monotone_of_hasDerivAt_nonneg hd
    intro x
    have := Real.one_sub_le_exp_neg x
    simp only [Pi.zero_apply]
    linarith
  have h := hmono hu
  simp only [neg_zero, Real.exp_zero] at h
  norm_num at h
  linarith

lemma cubic_le_exp_neg {u : ℝ} (hu : 0 ≤ u) :
    1 - u + u ^ 2 / 2 - u ^ 3 / 6 ≤ Real.exp (-u) := by
  have hmono : MonotoneOn (fun u : ℝ => Real.exp (-u) - (1 - u + u ^ 2 / 2 - u ^ 3 / 6))
      (Set.Ici (0 : ℝ)) := by
    have hderiv : ∀ x : ℝ, HasDerivAt
        (fun u : ℝ => Real.exp (-u) - (1 - u + u ^ 2 / 2 - u ^ 3 / 6))
        (-Real.exp (-x) + 1 - x + x ^ 2 / 2) x := by
      intro x
      have hexp : HasDerivAt (fun y : ℝ => Real.exp (-y)) (-Real.exp (-x)) x := by
        have h := (Real.hasDerivAt_exp (-x)).comp x ((hasDerivAt_id x).neg)
        simpa [Function.comp] using h
      have hid : HasDerivAt (fun y : ℝ => (1 : ℝ) - y) (-1) x := by
        simpa using (hasDerivAt_id x).const_sub 1
      have hsq : HasDerivAt (fun y : ℝ => y ^ 2 / 2) x x := by
        have := (hasDerivAt_pow 2 x).div_const 2
        convert this using 1
        ring
      have hcub : HasDerivAt (fun y : ℝ => y ^ 3 / 6) (x ^ 2 / 2) x := by
        have := (hasDerivAt_pow 3 x).div_const 6
        convert this using 1
        ring
      have := hexp.sub (((hid.add hsq).sub hcub))
      convert this using 1
      ring
    apply monotoneOn_of_deriv_nonneg (convex_Ici 0)
    · exact fun x _ => (hderiv x).continuousAt.continuousWithinAt
    · exact fun x hx => (hderiv x).differentiableAt.differentiableWithinAt
    · intro x hx
      rw [interior_Ici] at hx
      rw [(hderiv x).deriv]
      have := exp_neg_le_quadratic (le_of_lt (Set.mem_Ioi.mp hx))
      linarith
  have h := hmono (Set.left_mem_Ici) (Set.mem_Ici.mpr hu) hu
  simp only [neg_zero, Real.exp_zero] at h
  norm_num at h
  linarith

lemma gauss_le_poly (x : ℝ) : Real.exp (-x ^ 2 / 2) ≤ 1 - x ^ 2 / 2 + x ^ 4 / 8 := by
  have h := exp_neg_le_quadratic (u := x ^ 2 / 2) (by positivity)
  have harg : -x ^ 2 / 2 = -(x ^ 2 / 2) := by ring
  rw [harg]
  calc Real.exp (-(x ^ 2 / 2)) ≤ 1 - x ^ 2 / 2 + (x ^ 2 / 2) ^ 2 / 2 := h
    _ = 1 - x ^ 2 / 2 + x ^ 4 / 8 := by ring

lemma poly_le_gauss (x : ℝ) :
    1 - x ^ 2 / 2 + x ^ 4 / 8 - x ^ 6 / 48 ≤ Real.exp (-x ^ 2 / 2) := by
  have h := cubic_le_exp_neg (u := x ^ 2 / 2) (by positivity)
  have harg : -x ^ 2 / 2 = -(x ^ 2 / 2) := by ring
  rw [harg]
  calc (1 : ℝ) - x ^ 2 / 2 + x ^ 4 / 8 - x ^ 6 / 48
      = 1 - x ^ 2 / 2 + (x ^ 2 / 2) ^ 2 / 2 - (x ^ 2 / 2) ^ 3 / 6 := by ring
    _ ≤ Real.exp (-(x ^ 2 / 2)) := h

lemma continuous_gauss : Continuous fun u : ℝ => Real.exp (-u ^ 2 / 2) :=
  Real.continuous_exp.comp (by continuity)

lemma gauss_integral_nonneg (a : ℝ) (ha : 0 ≤ a) :
    0 ≤ ∫ u in (0 : ℝ)..a, Real.exp (-u ^ 2 / 2) :=
  intervalIntegral.integral_nonneg ha fun x _ => (Real.exp_pos _).le

lemma gauss_poly_integral_pieces (a : ℝ) :
    (∫ u in (0 : ℝ)..a, (1 - u ^ 2 / 2 + u ^ 4 / 8)) = a - a ^ 3 / 6 + a ^ 5 / 40 ∧
    (∫ u in (0 : ℝ)..a, (1 - u ^ 2 / 2 + u ^ 4 / 8 - u ^ 6 / 48))
      = a - a ^ 3 / 6 + a ^ 5 / 40 - a ^ 7 / 336 := by
  have hi1 : IntervalIntegrable (fun _ : ℝ => (1 : ℝ)) volume 0 a :=
    (continuous_const.intervalIntegrable 0 a)
  have hi2 : IntervalIntegrable (fun u : ℝ => u ^ 2 / 2) volume 0 a :=
    ((continuous_pow 2).div_const 2).intervalIntegrable 0 a
  have hi4 : IntervalIntegrable (fun u : ℝ => u ^ 4 / 8) volume 0 a :=
    ((continuous_pow 4).div_const 8).intervalIntegrable 0 a
  have hi6 : IntervalIntegrable (fun u : ℝ => u ^ 6 / 48) volume 0 a :=
    ((continuous_pow 6).div_const 48).intervalIntegrable 0 a
  have e1 : (∫ _ in (0 : ℝ)..a, (1 : ℝ)) = a := by
    rw [integral_one]; ring
  have e2 : (∫ u in (0 : ℝ)..a, u ^ 2 / 2) = a ^ 3 / 6 := by
    rw [intervalIntegral.integral_div, integral_pow]; norm_num; ring
  have e4 : (∫ u in (0 : ℝ)..a, u ^ 4 / 8) = a ^ 5 / 40 := by
    rw [intervalIntegral.integral_div, integral_pow]; norm_num; ring
  have e6 : (∫ u in (0 : ℝ)..a, u ^ 6 / 48) = a ^ 7 / 336 := by
    rw [intervalIntegral.integral_div, integral_pow]; norm_num; ring
  constructor
  · rw [intervalIntegral.integral_add (hi1.sub hi2) hi4,
      intervalIntegral.integral_sub hi1 hi2, e1, e2, e4]
  · rw [intervalIntegral.integral_sub ((hi1.sub hi2).add hi4) hi6,
      intervalIntegral.integral_add (hi1.sub hi2) hi4,
      intervalIntegral.integral_sub hi1 hi2, e1, e2, e4, e6]

lemma gauss_integral_upper (a : ℝ) (ha : 0 ≤ a) :
    (∫ u in (0 : ℝ)..a, Real.exp (-u ^ 2 / 2)) ≤ a - a ^ 3 / 6 + a ^ 5 / 40 := by
  have hmono := intervalIntegral.integral_mono_on (μ := volume) ha
    (continuous_gauss.intervalIntegrable 0 a)
    (((continuous_const.sub ((continuous_pow 2).div_const 2)).add
      ((continuous_pow 4).div_const 8)).intervalIntegrable 0 a)
    (fun x _ => gauss_le_poly x)
  rwa [(gauss_poly_integral_pieces a).1] at hmono

lemma gauss_integral_lower (a : ℝ) (ha : 0 ≤ a) :
    a - a ^ 3 / 6 + a ^ 5 / 40 - a ^ 7 / 336
      ≤ ∫ u in (0 : ℝ)..a, Real.exp (-u ^ 2 / 2) := by
  have hmono := intervalIntegral.integral_mono_on (μ := volume) ha
    ((((continuous_const.sub ((continuous_pow 2).div_const 2)).add
      ((continuous_pow 4).div_const 8)).sub
      ((continuous_pow 6).div_const 48)).intervalIntegrable 0 a)
    (continuous_gauss.intervalIntegrable 0 a)
    (fun x _ => poly_le_gauss x)
  rwa [(gauss_poly_integral_pieces a).2] at hmono

lemma normCdf_ge_half_sub (a slo : ℝ) (ha : 0 ≤ a) (hslo : 0 < slo)
    (hsle : slo ≤ Real.sqrt (2 * π)) :
    1 / 2 - (a - a ^ 3 / 6 + a ^ 5 / 40) / slo ≤ normCdf (-a) := by
  rw [normCdf_eq_half_sub, neg_neg]
  apply sub_le_sub_left
  exact div_le_div (le_trans (gauss_integral_nonneg a ha) (gauss_integral_upper a ha))
    (gauss_integral_upper a ha) hslo hsle

lemma normCdf_le_half_sub (a shi : ℝ) (ha : 0 ≤ a)
    (hJ : 0 ≤ a - a ^ 3 / 6 + a ^ 5 / 40 - a ^ 7 / 336)
    (hshi : Real.sqrt (2 * π) ≤ shi) :
    normCdf (-a) ≤ 1 / 2 - (a - a ^ 3 / 6 + a ^ 5 / 40 - a ^ 7 / 336) / shi := by
  rw [normCdf_eq_half_sub, neg_neg]
  apply sub_le_sub_left
  exact div_le_div (le_trans hJ (gauss_integral_lower a ha))
    (gauss_integral_lower a ha) sqrt_two_pi_pos hshi

lemma sqrt_two_pi_lb : (25066276 / 10 ^ 7 : ℝ) ≤ Real.sqrt (2 * π) := by
  rw [Real.le_sqrt (by norm_num) (by positivity)]
  nlinarith [Real.pi_gt_d6]

lemma sqrt_two_pi_ub : Real.sqrt (2 * π) ≤ (25066287 / 10 ^ 7 : ℝ) := by
  rw [show Real.sqrt (2 * π) ≤ (25066287 / 10 ^ 7 : ℝ)
      ↔ 2 * π ≤ ((25066287 / 10 ^ 7 : ℝ)) ^ 2 from Real.sqrt_le_left (by norm_num)]
  nlinarith [Real.pi_lt_d6]

lemma log_ratio_bounds :
    -(3985280 / 81682020 : ℝ) ≤ Real.log (20 / 21) ∧
      Real.log (20 / 21) ≤ -(3985278 / 81682020 : ℝ) := by
  have habs : |(1 : ℝ) / 21| < 1 := by
    rw [abs_of_nonneg (by norm_num : (0 : ℝ) ≤ 1 / 21)]
    norm_num
  have h := Real.abs_log_sub_add_sum_range_le habs 5
  rw [show |(1 : ℝ) / 21| = 1 / 21 from abs_of_nonneg (by norm_num),
    show (1 : ℝ) - 1 / 21 = 20 / 21 by norm_num, abs_le] at h
  obtain ⟨h1, h2⟩ := h
  norm_num [Finset.sum_range_succ] at h1 h2
  constructor <;> linarith

lemma exp_neg_small_bounds :
    (9925280 / 10 ^ 7 : ℝ) ≤ Real.exp (-(3 / 400)) ∧
      Real.exp (-(3 / 400)) ≤ (9925283 / 10 ^ 7 : ℝ) := by
  have habs : |(-(3 / 400) : ℝ)| ≤ 1 := by
    rw [abs_of_nonpos (by norm_num : (-(3 / 400) : ℝ) ≤ 0)]
    norm_num
  have h := Real.exp_bound habs (by norm_num : 0 < 3)
  rw [show |(-(3 / 400) : ℝ)| = 3 / 400 from by
      rw [abs_of_nonpos (by norm_num : (-(3 / 400) : ℝ) ≤ 0)]; norm_num,
    abs_le] at h
  obtain ⟨h1, h2⟩ := h
  norm_num [Finset.sum_range_succ, Nat.factorial] at h1 h2
  constructor <;> linarith

lemma sqrt_quarter : Real.sqrt ((1 : ℝ) / 4) = 1 / 2 := by
  rw [show (1 / 4 : ℝ) = (1 / 2) ^ 2 by norm_num,
    Real.sqrt_sq (by norm_num : (0 : ℝ) ≤ 1 / 2)]

lemma d1_value : d1 100 (3 / 100) (2 / 5) (1 / 4) 105
    = 5 * Real.log (20 / 21) + 11 / 80 := by
  unfold d1
  rw [sqrt_quarter, show (100 : ℝ) / 105 = 20 / 21 by norm_num]
  ring

lemma d2_value : d2 100 (3 / 100) (2 / 5) (1 / 4) 105
    = 5 * Real.log (20 / 21) + 11 / 80 - 1 / 5 := by
  unfold d2
  rw [d1_value, sqrt_quarter]
  ring

/-- C7: the closed-form price at spot = 100, rate = 0.03, volatility = 0.4,
time = 0.25, strike = 105 is within 1e-3 of 6.1979. -/
theorem call_scenario_value :
    |call 100 (3 / 100) (2 / 5) (1 / 4) 105 - 6.1979| ≤ 1 / 1000 := by
  have hlog := log_ratio_bounds
  have hd1lo : -(1064509 / 10 ^ 7 : ℝ) ≤ d1 100 (3 / 100) (2 / 5) (1 / 4) 105 := by
    rw [d1_value]; linarith [hlog.1]
  have hd1hi : d1 100 (3 / 100) (2 / 5) (1 / 4) 105 ≤ -(1064507 / 10 ^ 7 : ℝ) := by
    rw [d1_value]; linarith [hlog.2]
  have hd2lo : -(3064509 / 10 ^ 7 : ℝ) ≤ d2 100 (3 / 100) (2 / 5) (1 / 4) 105 := by
    rw [d2_value]; linarith [hlog.1]
  have hd2hi : d2 100 (3 / 100) (2 / 5) (1 / 4) 105 ≤ -(3064507 / 10 ^ 7 : ℝ) := by
    rw [d2_value]; linarith [hlog.2]
  have hP1lo : (4576122 / 10 ^ 7 : ℝ)
      ≤ normCdf (d1 100 (3 / 100) (2 / 5) (1 / 4) 105) := by
    have hb := normCdf_ge_half_sub (1064509 / 10 ^ 7) (25066276 / 10 ^ 7)
      (by norm_num) (by norm_num) sqrt_two_pi_lb
    have hmono := normCdf_mono hd1lo
    have hnum : (4576122 / 10 ^ 7 : ℝ)
        ≤ 1 / 2 - ((1064509 / 10 ^ 7 : ℝ) - (1064509 / 10 ^ 7 : ℝ) ^ 3 / 6
          + (1064509 / 10 ^ 7 : ℝ) ^ 5 / 40) / (25066276 / 10 ^ 7) := by norm_num
    linarith
  have hP1hi : normCdf (d1 100 (3 / 100) (2 / 5) (1 / 4) 105)
      ≤ (4576124 / 10 ^ 7 : ℝ) := by
    have hb := normCdf_le_half_sub (1064507 / 10 ^ 7) (25066287 / 10 ^ 7)
      (by norm_num) (by norm_num) sqrt_two_pi_ub
    have hmono := normCdf_mono hd1hi
    have hnum : 1 / 2 - ((1064507 / 10 ^ 7 : ℝ) - (1064507 / 10 ^ 7 : ℝ) ^ 3 / 6
          + (1064507 / 10 ^ 7 : ℝ) ^ 5 / 40 - (1064507 / 10 ^ 7 : ℝ) ^ 7 / 336)
          / (25066287 / 10 ^ 7)
        ≤ (4576124 / 10 ^ 7 : ℝ) := by norm_num
    linarith
  have hP2lo : (3796303 / 10 ^ 7 : ℝ)
      ≤ normCdf (d2 100 (3 / 100) (2 / 5) (1 / 4) 105) := by
    have hb := normCdf_ge_half_sub (3064509 / 10 ^ 7) (25066276 / 10 ^ 7)
      (by norm_num) (by norm_num) sqrt_two_pi_lb
    have hmono := normCdf_mono hd2lo
    have hnum : (3796303 / 10 ^ 7 : ℝ)
        ≤ 1 / 2 - ((3064509 / 10 ^ 7 : ℝ) - (3064509 / 10 ^ 7 : ℝ) ^ 3 / 6
          + (3064509 / 10 ^ 7 : ℝ) ^ 5 / 40) / (25066276 / 10 ^ 7) := by norm_num
    linarith
  have hP2hi : normCdf (d2 100 (3 / 100) (2 / 5) (1 / 4) 105)
      ≤ (3796308 / 10 ^ 7 : ℝ) := by
    have hb := normCdf_le_half_sub (3064507 / 10 ^ 7) (25066287 / 10 ^ 7)
      (by norm_num) (by norm_num) sqrt_two_pi_ub
    have hmono := normCdf_mono hd2hi
    have hnum : 1 / 2 - ((3064507 / 10 ^ 7 : ℝ) - (3064507 / 10 ^ 7 : ℝ) ^ 3 / 6
          + (3064507 / 10 ^ 7 : ℝ) ^ 5 / 40 - (3064507 / 10 ^ 7 : ℝ) ^ 7 / 336)
          / (25066287 / 10 ^ 7)
        ≤ (3796308 / 10 ^ 7 : ℝ) := by norm_num
    linarith
  have hE := exp_neg_small_bounds
  have hcall : call 100 (3 / 100) (2 / 5) (1 / 4) 105
      = normCdf (d1 100 (3 / 100) (2 / 5) (1 / 4) 105) * 100
        - normCdf (d2 100 (3 / 100) (2 / 5) (1 / 4) 105) * 105
          * Real.exp (-(3 / 400)) := by
    unfold call
    norm_num
  have hΦ2nonneg := normCdf_nonneg (d2 100 (3 / 100) (2 / 5) (1 / 4) 105)
  have hprod_hi : normCdf (d2 100 (3 / 100) (2 / 5) (1 / 4) 105)
      * Real.exp (-(3 / 400)) ≤ (3796308 / 10 ^ 7 : ℝ) * (9925283 / 10 ^ 7) :=
    mul_le_mul hP2hi hE.2 (Real.exp_pos _).le (by norm_num)
  have hprod_lo : (3796303 / 10 ^ 7 : ℝ) * (9925280 / 10 ^ 7)
      ≤ normCdf (d2 100 (3 / 100) (2 / 5) (1 / 4) 105) * Real.exp (-(3 / 400)) :=
    mul_le_mul hP2lo hE.1 (by norm_num) hΦ2nonneg
  have hring : normCdf (d2 100 (3 / 100) (2 / 5) (1 / 4) 105) * 105
      * Real.exp (-(3 / 400))
      = 105 * (normCdf (d2 100 (3 / 100) (2 / 5) (1 / 4) 105)
        * Real.exp (-(3 / 400))) := by ring
  rw [hcall, hring, abs_le]
  constructor
  · linarith [hP1lo, hprod_hi]
  · linarith [hP1hi, hprod_lo]
